import Mathlib

/-!
Verification of the task-list storage abstraction: an in-memory task
repository and a file-backed task repository sharing one contract
(`addTask`, `getTasks`, `markTaskCompleted`).

The file-backed repository is modelled at the byte level: a file is an
optional list of characters (`none` = the file does not exist), the file
system is a map from paths to such files, and the line/field handling of
the C++ code (`getline`, `find(',')`, `substr`) is reproduced exactly,
including the behaviour on lines without a comma (where `find` returns
`npos` and `substr(npos + 1)` wraps around to the whole string).
-/

/-- A stored task (`struct Task` nested in `InMemoryTaskRepository`): a
description and a completion flag. -/
structure InMemoryTaskRepository.Task where
  description : String
  completed : Bool
deriving DecidableEq, Repr

/-- Splits a character stream into lines exactly as the `while (getline)`
loop does: lines are terminated by a newline character, a trailing
fragment without a final newline still counts as a line, and a trailing
newline does not create an extra empty line. -/
def getLines : List Char → List (List Char)
  | [] => []
  | c :: cs =>
    if c = '\n' then [] :: getLines cs
    else
      match getLines cs with
      | [] => [[c]]
      | l :: ls => (c :: l) :: ls

/-- Joins lines back into a character stream, terminating every line with
a newline, as the rewrite loop `outFile << line << "\n"` does. -/
def unlines : List (List Char) → List Char
  | [] => []
  | l :: ls => l ++ '\n' :: unlines ls

/-- Splits a line at its first comma, as `line.find(',')` plus the two
`substr` calls do: `some (before, after)` when a comma occurs, `none`
when the line has no comma. -/
def splitComma : List Char → Option (List Char × List Char)
  | [] => none
  | c :: cs =>
    if c = ',' then some ([], cs)
    else (splitComma cs).map (fun p => (c :: p.1, p.2))

/-- Decodes one line of the backing file into the display string produced
by `FileTaskRepository::getTasks`: the part before the first comma is the
description and the task is completed exactly when the part after the
first comma is `"true"`.  On a line with no comma, `find` returns `npos`,
`substr(0, npos)` is the whole line and `substr(npos + 1)` wraps to
`substr(0)`, so the whole line serves as both fields. -/
def decodeLine (l : List Char) : String :=
  match splitComma l with
  | some (d, s) => (if s = "true".data then "[X] " else "[ ] ") ++ String.mk d
  | none => (if l = "true".data then "[X] " else "[ ] ") ++ String.mk l

/-- Rewrites one line as `FileTaskRepository::markTaskCompleted` does:
`substr(0, commaPos + 1) + "true"` keeps everything up to and including
the first comma and replaces the rest with `true`.  On a line with no
comma, `substr(0, npos + 1) = substr(0, 0)` is empty, so the whole line
becomes `true`. -/
def markLine (l : List Char) : List Char :=
  match splitComma l with
  | some (d, _) => d ++ ',' :: "true".data
  | none => "true".data

namespace InMemoryTaskRepository

/-- The state of `InMemoryTaskRepository`: `vector<Task> tasks`. -/
def State := List Task

/-- `InMemoryTaskRepository::addTask`: `tasks.push_back({task, false})`. -/
def addTask (tasks : List Task) (task : String) : List Task :=
  tasks ++ [⟨task, false⟩]

/-- `InMemoryTaskRepository::getTasks`: renders each task as
`"[X] " + description` or `"[ ] " + description`, in storage order. -/
def getTasks (tasks : List Task) : List String :=
  tasks.map fun t =>
    if t.completed then "[X] " ++ t.description else "[ ] " ++ t.description

/-- `InMemoryTaskRepository::markTaskCompleted`: sets the flag when
`index >= 0 && index < tasks.size()`, otherwise does nothing. -/
def markTaskCompleted (tasks : List Task) (index : Int) : List Task :=
  if h : 0 ≤ index ∧ index.toNat < tasks.length then
    tasks.set index.toNat ⟨(tasks.get ⟨index.toNat, h.2⟩).description, true⟩
  else tasks

end InMemoryTaskRepository

/-- The content of one file: `none` when the file does not exist (or
cannot be opened for reading), otherwise its character content. -/
abbrev FileContent := Option (List Char)

/-- The lines the file-backed repository reads from a file: a missing
file yields no lines (`is_open()` is false), otherwise `getline` splits
the content. -/
def fileLines (f : FileContent) : List (List Char) :=
  match f with
  | none => []
  | some c => getLines c

/-- `FileTaskRepository::addTask` at the level of one file's content:
opens in append mode (creating a missing file as empty) and writes
`task + ",false\n"` after the existing content. -/
def fileAdd (f : FileContent) (task : String) : FileContent :=
  some ((f.getD []) ++ task.data ++ (",false\n").data)

/-- `FileTaskRepository::getTasks` at the level of one file's content:
decodes every line independently; a missing file yields no tasks. -/
def fileGetTasks (f : FileContent) : List String :=
  (fileLines f).map decodeLine

/-- `FileTaskRepository::markTaskCompleted` at the level of one file's
content: reads all lines, rewrites line `index` when
`index >= 0 && index < lines.size()`, then truncates the file and writes
every line back followed by a newline.  The truncating open creates the
file when it did not exist. -/
def fileMark (f : FileContent) (index : Int) : FileContent :=
  let lines := fileLines f
  some (unlines
    (if h : 0 ≤ index ∧ index.toNat < lines.length then
      lines.set index.toNat (markLine (lines.get ⟨index.toNat, h.2⟩))
    else lines))

/-- The file system: a map from paths to file contents. -/
abbrev World := String → FileContent

/-- `FileTaskRepository` holds only the path of its backing file; it
caches no task state between calls. -/
structure FileTaskRepository where
  filePath : String

namespace FileTaskRepository

/-- `FileTaskRepository::addTask` as an action on the file system. -/
def addTask (r : FileTaskRepository) (w : World) (task : String) : World :=
  fun p => if p = r.filePath then fileAdd (w r.filePath) task else w p

/-- `FileTaskRepository::getTasks` reads only the backing file. -/
def getTasks (r : FileTaskRepository) (w : World) : List String :=
  fileGetTasks (w r.filePath)

/-- `FileTaskRepository::markTaskCompleted` as an action on the file
system. -/
def markTaskCompleted (r : FileTaskRepository) (w : World) (index : Int) : World :=
  fun p => if p = r.filePath then fileMark (w r.filePath) index else w p

end FileTaskRepository

/-- One mutating operation of the task-store contract. -/
inductive Op where
  | add : String → Op
  | mark : Int → Op
deriving DecidableEq, Repr

/-- Applies one operation to the in-memory store. -/
def memApply (s : List InMemoryTaskRepository.Task) :
    Op → List InMemoryTaskRepository.Task
  | .add d => InMemoryTaskRepository.addTask s d
  | .mark i => InMemoryTaskRepository.markTaskCompleted s i

/-- Runs a sequence of operations on an initially empty in-memory
store. -/
def memRun (ops : List Op) : List InMemoryTaskRepository.Task :=
  ops.foldl memApply []

/-- Applies one operation to a file's content. -/
def fileApply (f : FileContent) : Op → FileContent
  | .add d => fileAdd f d
  | .mark i => fileMark f i

/-- Runs a sequence of operations against an initially non-existent
backing file. -/
def fileRun (ops : List Op) : FileContent :=
  ops.foldl fileApply none

namespace FileTaskRepository

/-- Applies one operation through a repository instance. -/
def apply (r : FileTaskRepository) (w : World) : Op → World
  | .add d => r.addTask w d
  | .mark i => r.markTaskCompleted w i

/-- Runs a sequence of operations through a repository instance. -/
def run (r : FileTaskRepository) (w : World) (ops : List Op) : World :=
  ops.foldl r.apply w

end FileTaskRepository

/-- The line written by the file-backed `addTask` for a task, without its
terminating newline: `description,true` or `description,false`. -/
def encodeTask (t : InMemoryTaskRepository.Task) : List Char :=
  t.description.data ++ ',' :: (if t.completed then "true".data else "false".data)

/-! ### Lemmas about lines -/

theorem getLines_nil : getLines [] = [] := rfl

theorem getLines_ne_nil {s : List Char} (h : s ≠ []) : getLines s ≠ [] := by
  match s with
  | [] => exact absurd rfl h
  | c :: cs =>
    rw [getLines]
    by_cases hc : c = '\n'
    · simp [hc]
    · simp only [hc, if_false]
      cases getLines cs <;> simp

theorem getLines_newline_cons (t : List Char) :
    getLines ('\n' :: t) = [] :: getLines t := by
  rw [getLines]
  simp

theorem getLines_line {l : List Char} (hl : '\n' ∉ l) (t : List Char) :
    getLines (l ++ '\n' :: t) = l :: getLines t := by
  induction l with
  | nil => simpa using getLines_newline_cons t
  | cons c l ih =>
    have hc : c ≠ '\n' := fun h => hl (h ▸ List.mem_cons_self c l)
    have hl' : '\n' ∉ l := fun h => hl (List.mem_cons_of_mem c h)
    rw [List.cons_append, getLines]
    simp only [hc, if_false]
    rw [ih hl']

theorem unlines_append (a b : List (List Char)) :
    unlines (a ++ b) = unlines a ++ unlines b := by
  induction a with
  | nil => rfl
  | cons l ls ih => simp [unlines, ih]

theorem getLines_unlines_append {ls : List (List Char)}
    (h : ∀ l ∈ ls, '\n' ∉ l) (t : List Char) :
    getLines (unlines ls ++ t) = ls ++ getLines t := by
  induction ls with
  | nil => rfl
  | cons l ls ih =>
    have hl : '\n' ∉ l := h l (List.mem_cons_self l ls)
    have h' : ∀ m ∈ ls, '\n' ∉ m := fun m hm => h m (List.mem_cons_of_mem l hm)
    rw [unlines, List.append_assoc, List.cons_append, getLines_line hl, ih h']
    rfl

theorem getLines_unlines {ls : List (List Char)} (h : ∀ l ∈ ls, '\n' ∉ l) :
    getLines (unlines ls) = ls := by
  have h2 := getLines_unlines_append h []
  rw [List.append_nil, getLines_nil, List.append_nil] at h2
  exact h2

theorem noNewline_of_mem_getLines {s : List Char} :
    ∀ l ∈ getLines s, '\n' ∉ l := by
  induction s with
  | nil => intro l hl; simp [getLines_nil] at hl
  | cons c cs ih =>
    intro l hl
    rw [getLines] at hl
    by_cases hc : c = '\n'
    · simp only [hc, if_true] at hl
      rcases List.mem_cons.mp hl with h | h
      · subst h; simp
      · exact ih l h
    · simp only [hc, if_false] at hl
      cases hgl : getLines cs with
      | nil =>
        rw [hgl] at hl
        have hle : l = [c] := by simpa using hl
        subst hle
        intro hx
        exact hc ((List.mem_singleton.mp hx).symm)
      | cons m ms =>
        rw [hgl] at hl
        rcases List.mem_cons.mp hl with h | h
        · subst h
          intro hmem
          rcases List.mem_cons.mp hmem with h1 | h1
          · exact hc h1.symm
          · exact ih m (by rw [hgl]; exact List.mem_cons_self m ms) h1
        · exact ih l (by rw [hgl]; exact List.mem_cons_of_mem m h)

theorem unlines_getLines {s : List Char} :
    unlines (getLines (s ++ ['\n'])) = s ++ ['\n'] := by
  induction s with
  | nil => rfl
  | cons c cs ih =>
    rw [List.cons_append, getLines]
    by_cases hc : c = '\n'
    · subst hc
      simp only [if_true]
      rw [unlines, ih]
      rfl
    · simp only [hc, if_false]
      cases hgl : getLines (cs ++ ['\n']) with
      | nil => exact absurd hgl (getLines_ne_nil (by simp))
      | cons m ms =>
        rw [unlines]
        have : unlines (m :: ms) = cs ++ ['\n'] := by rw [← hgl, ih]
        rw [unlines] at this
        simp [this]

/-! ### Lemmas about the comma split -/

theorem splitComma_append {a : List Char} (h : ',' ∉ a) (b : List Char) :
    splitComma (a ++ ',' :: b) = some (a, b) := by
  induction a with
  | nil => simp [splitComma]
  | cons c l ih =>
    have hc : c ≠ ',' := fun hc => h (hc ▸ List.mem_cons_self c l)
    have h' : ',' ∉ l := fun hm => h (List.mem_cons_of_mem c hm)
    rw [List.cons_append, splitComma]
    simp [hc, ih h']

theorem splitComma_eq_none {l : List Char} (h : ',' ∉ l) :
    splitComma l = none := by
  induction l with
  | nil => rfl
  | cons c m ih =>
    have hc : c ≠ ',' := fun hc => h (hc ▸ List.mem_cons_self c m)
    have h' : ',' ∉ m := fun hm => h (List.mem_cons_of_mem c hm)
    rw [splitComma]
    simp [hc, ih h']

theorem splitComma_some {l a b : List Char} (h : splitComma l = some (a, b)) :
    l = a ++ ',' :: b ∧ ',' ∉ a := by
  induction l generalizing a b with
  | nil => simp [splitComma] at h
  | cons c m ih =>
    rw [splitComma] at h
    by_cases hc : c = ','
    · simp only [hc, if_true, Option.some.injEq, Prod.mk.injEq] at h
      obtain ⟨ha, hb⟩ := h
      subst ha; subst hb
      simp [hc]
    · simp only [hc, if_false, Option.map_eq_some'] at h
      obtain ⟨⟨a', b'⟩, hsp, heq⟩ := h
      simp only [Prod.mk.injEq] at heq
      obtain ⟨ha, hb⟩ := heq
      obtain ⟨hm, hna⟩ := ih hsp
      subst hb
      constructor
      · rw [← ha, hm]; rfl
      · rw [← ha]
        intro hmem
        rcases List.mem_cons.mp hmem with h1 | h1
        · exact hc h1.symm
        · exact hna h1

theorem comma_not_mem_of_splitComma_eq_none {l : List Char}
    (h : splitComma l = none) : ',' ∉ l := by
  induction l with
  | nil => simp
  | cons c m ih =>
    rw [splitComma] at h
    by_cases hc : c = ','
    · simp [hc] at h
    · simp only [hc, if_false, Option.map_eq_none'] at h
      intro hmem
      rcases List.mem_cons.mp hmem with h1 | h1
      · exact hc h1.symm
      · exact ih h h1

/-! ### String-level helpers -/

theorem string_append_left_cancel {s u v : String} (h : s ++ u = s ++ v) :
    u = v := by
  apply String.ext
  have h2 := congrArg String.data h
  rw [String.data_append, String.data_append] at h2
  exact List.append_cancel_left h2

theorem blank_tag_ne_done_tag (u v : String) :
    ("[ ] " : String) ++ u ≠ ("[X] " : String) ++ v := by
  intro h
  have h2 := congrArg String.data h
  rw [String.data_append, String.data_append] at h2
  have e1 : ("[ ] " : String).data = ['[', ' ', ']', ' '] := rfl
  have e2 : ("[X] " : String).data = ['[', 'X', ']', ' '] := rfl
  rw [e1, e2] at h2
  simp only [List.cons_append, List.nil_append, List.cons.injEq] at h2
  exact absurd h2.2.1 (by decide)

theorem empty_ne_done_tag (u : String) : ("" : String) ≠ ("[X] " : String) ++ u := by
  intro h
  have h2 := congrArg String.data h
  rw [String.data_append] at h2
  have e0 : ("" : String).data = [] := rfl
  have e2 : ("[X] " : String).data = ['[', 'X', ']', ' '] := rfl
  rw [e0, e2] at h2
  simp at h2

/-! ### Lemmas about line decoding and marking -/

theorem decodeLine_of_split {d : List Char} (h : ',' ∉ d) (s : List Char) :
    decodeLine (d ++ ',' :: s) =
      (if s = "true".data then "[X] " else "[ ] ") ++ String.mk d := by
  simp [decodeLine, splitComma_append h]

theorem decodeLine_no_comma {l : List Char} (h : ',' ∉ l) :
    decodeLine l = (if l = "true".data then "[X] " else "[ ] ") ++ String.mk l := by
  simp [decodeLine, splitComma_eq_none h]

theorem markLine_of_split {d : List Char} (h : ',' ∉ d) (s : List Char) :
    markLine (d ++ ',' :: s) = d ++ ',' :: "true".data := by
  simp [markLine, splitComma_append h]

theorem markLine_no_comma {l : List Char} (h : ',' ∉ l) :
    markLine l = "true".data := by
  simp [markLine, splitComma_eq_none h]

theorem markLine_markLine (l : List Char) :
    markLine (markLine l) = markLine l := by
  cases hsp : splitComma l with
  | none =>
    have h1 : markLine l = "true".data := by simp [markLine, hsp]
    rw [h1, markLine_no_comma (by decide)]
  | some p =>
    obtain ⟨hl, hna⟩ := splitComma_some (l := l) (a := p.1) (b := p.2) (by rw [hsp])
    have h1 : markLine l = p.1 ++ ',' :: "true".data := by simp [markLine, hsp]
    rw [h1, markLine_of_split hna]

theorem noNewline_markLine {l : List Char} (h : '\n' ∉ l) :
    '\n' ∉ markLine l := by
  cases hsp : splitComma l with
  | none =>
    have h1 : markLine l = "true".data := by simp [markLine, hsp]
    rw [h1]; decide
  | some p =>
    obtain ⟨hl, hna⟩ := splitComma_some (l := l) (a := p.1) (b := p.2) (by rw [hsp])
    have h1 : markLine l = p.1 ++ ',' :: "true".data := by simp [markLine, hsp]
    rw [h1]
    intro hmem
    rcases List.mem_append.mp hmem with h1 | h1
    · exact h (hl ▸ List.mem_append_left _ h1)
    · rcases List.mem_cons.mp h1 with h2 | h2
      · exact absurd h2 (by decide)
      · exact absurd h2 (by decide)

theorem decodeLine_markLine {l a b : List Char}
    (hsp : splitComma l = some (a, b)) :
    decodeLine (markLine l) = ("[X] " : String) ++ String.mk a := by
  obtain ⟨hl, hna⟩ := splitComma_some hsp
  have h1 : markLine l = a ++ ',' :: "true".data := by simp [markLine, hsp]
  rw [h1, decodeLine_of_split hna, if_pos rfl]

theorem markLine_of_decode_done {l : List Char} {d : String}
    (h : decodeLine l = ("[X] " : String) ++ d) : markLine l = l := by
  cases hsp : splitComma l with
  | none =>
    have hnc := comma_not_mem_of_splitComma_eq_none hsp
    by_cases ht : l = "true".data
    · rw [markLine_no_comma hnc, ht]
    · rw [decodeLine_no_comma hnc, if_neg ht] at h
      exact absurd h (blank_tag_ne_done_tag _ _)
  | some p =>
    obtain ⟨hl, hna⟩ := splitComma_some (l := l) (a := p.1) (b := p.2) (by rw [hsp])
    by_cases hb : p.2 = "true".data
    · have h1 : markLine l = p.1 ++ ',' :: "true".data := by simp [markLine, hsp]
      rw [h1, hl, hb]
    · rw [hl, decodeLine_of_split hna, if_neg hb] at h
      exact absurd h (blank_tag_ne_done_tag _ _)

/-! ### Helpers about file contents -/

theorem mk_data (s : String) : String.mk s.data = s := rfl

theorem list_set_self {α : Type} (l : List α) (n : Nat) (h : n < l.length) :
    l.set n (l.get ⟨n, h⟩) = l := by
  induction l generalizing n with
  | nil => simp at h
  | cons a l ih =>
    cases n with
    | zero => rfl
    | succ m =>
      simp only [List.set_cons_succ, List.cons.injEq, true_and]
      exact ih m (by simpa using h)

theorem noNewline_fileLines (f : FileContent) :
    ∀ l ∈ fileLines f, '\n' ∉ l := by
  cases f with
  | none => simp [fileLines]
  | some c =>
    intro l hl
    exact noNewline_of_mem_getLines l hl

theorem fileGetTasks_some_unlines {ls : List (List Char)}
    (h : ∀ l ∈ ls, '\n' ∉ l) :
    fileGetTasks (some (unlines ls)) = ls.map decodeLine := by
  rw [fileGetTasks]
  show (getLines (unlines ls)).map decodeLine = ls.map decodeLine
  rw [getLines_unlines h]

theorem length_fileGetTasks (f : FileContent) :
    (fileGetTasks f).length = (fileLines f).length := by
  rw [fileGetTasks, List.length_map]

theorem fileMark_pos {f : FileContent} {i : Int}
    (h : 0 ≤ i ∧ i.toNat < (fileLines f).length) :
    fileMark f i = some (unlines ((fileLines f).set i.toNat
      (markLine ((fileLines f).getD i.toNat [])))) := by
  rw [fileMark]
  simp only [dif_pos h]
  rw [List.getD_eq_getElem _ _ h.2]
  simp [List.get_eq_getElem]

theorem fileMark_neg {f : FileContent} {i : Int}
    (h : ¬(0 ≤ i ∧ i.toNat < (fileLines f).length)) :
    fileMark f i = some (unlines (fileLines f)) := by
  rw [fileMark]
  simp only [dif_neg h]

theorem memMark_pos {ts : List InMemoryTaskRepository.Task} {i : Int}
    (h : 0 ≤ i ∧ i.toNat < ts.length) :
    InMemoryTaskRepository.markTaskCompleted ts i =
      ts.set i.toNat ⟨(ts.getD i.toNat ⟨"", false⟩).description, true⟩ := by
  rw [InMemoryTaskRepository.markTaskCompleted]
  simp only [dif_pos h]
  rw [List.getD_eq_getElem _ _ h.2]
  simp [List.get_eq_getElem]

theorem memMark_neg {ts : List InMemoryTaskRepository.Task} {i : Int}
    (h : ¬(0 ≤ i ∧ i.toNat < ts.length)) :
    InMemoryTaskRepository.markTaskCompleted ts i = ts := by
  rw [InMemoryTaskRepository.markTaskCompleted]
  simp only [dif_neg h]

theorem unlines_ends_newline {ls : List (List Char)} (h : ls ≠ []) :
    ∃ x, unlines ls = x ++ ['\n'] := by
  induction ls with
  | nil => exact absurd rfl h
  | cons l ls ih =>
    cases ls with
    | nil => exact ⟨l, rfl⟩
    | cons m ms =>
      obtain ⟨x, hx⟩ := ih (by simp)
      exact ⟨l ++ '\n' :: x, by rw [unlines, hx]; simp⟩

/-! ### Claim theorems -/

/-- Claim C3: for every store (either variant) holding `n` tasks and
every integer `i` with `i < 0` or `i >= n`, `markTaskCompleted i` leaves
the subsequent `getTasks` result byte-for-byte identical. -/
theorem C3_out_of_bounds_mark_is_noop
    (ts : List InMemoryTaskRepository.Task) (f : FileContent) (i : Int)
    (hm : i < 0 ∨ (InMemoryTaskRepository.getTasks ts).length ≤ i)
    (hf : i < 0 ∨ (fileGetTasks f).length ≤ i) :
    InMemoryTaskRepository.getTasks (InMemoryTaskRepository.markTaskCompleted ts i) =
      InMemoryTaskRepository.getTasks ts ∧
    fileGetTasks (fileMark f i) = fileGetTasks f := by
  constructor
  · have hlen : (InMemoryTaskRepository.getTasks ts).length = ts.length := by
      rw [InMemoryTaskRepository.getTasks, List.length_map]
    rw [hlen] at hm
    have hg : ¬(0 ≤ i ∧ i.toNat < ts.length) := by omega
    rw [InMemoryTaskRepository.markTaskCompleted, dif_neg hg]
  · have hlen := length_fileGetTasks f
    rw [hlen] at hf
    have hg : ¬(0 ≤ i ∧ i.toNat < (fileLines f).length) := by omega
    rw [fileMark]
    simp only [dif_neg hg]
    rw [fileGetTasks_some_unlines (noNewline_fileLines f), fileGetTasks]

/-- Witness for C3: with one stored task, `markTaskCompleted 5` changes
neither variant's `getTasks` output. -/
theorem C3_witness :
    InMemoryTaskRepository.getTasks
        (InMemoryTaskRepository.markTaskCompleted [⟨"a", false⟩] 5) =
      InMemoryTaskRepository.getTasks [⟨"a", false⟩] ∧
    fileGetTasks (fileMark (some ("a,false\n").data) 5) =
      fileGetTasks (some ("a,false\n").data) :=
  C3_out_of_bounds_mark_is_noop [⟨"a", false⟩] (some ("a,false\n").data) 5
    (Or.inr (by decide)) (Or.inr (by decide))

/-- Claim C4: after any operation sequence performed through one
`FileTaskRepository` instance, a freshly constructed instance on the same
file returns the same `getTasks` output as the original instance; the
instance carries no state besides the file path. -/
theorem C4_fresh_instance_same_getTasks
    (r r' : FileTaskRepository) (h : r'.filePath = r.filePath)
    (w : World) (ops : List Op) :
    r'.getTasks (r.run w ops) = r.getTasks (r.run w ops) := by
  rw [FileTaskRepository.getTasks, FileTaskRepository.getTasks, h]

/-- Witness for C4: a fresh instance on `"tasks.txt"` sees the task the
original instance added. -/
theorem C4_witness :
    FileTaskRepository.getTasks ⟨"tasks.txt"⟩
        (FileTaskRepository.run ⟨"tasks.txt"⟩ (fun _ => none)
          [Op.add "Buy milk", Op.mark 0]) =
      FileTaskRepository.getTasks ⟨"tasks.txt"⟩
        (FileTaskRepository.run ⟨"tasks.txt"⟩ (fun _ => none)
          [Op.add "Buy milk", Op.mark 0]) ∧
    FileTaskRepository.getTasks ⟨"tasks.txt"⟩
        (FileTaskRepository.run ⟨"tasks.txt"⟩ (fun _ => none)
          [Op.add "Buy milk", Op.mark 0]) = ["[X] Buy milk"] :=
  ⟨C4_fresh_instance_same_getTasks ⟨"tasks.txt"⟩ ⟨"tasks.txt"⟩ rfl
      (fun _ => none) [Op.add "Buy milk", Op.mark 0],
    by decide⟩

/-- Claim C8: marking the same valid index twice in a row leaves both
variants in the same state (in-memory task vector, and file contents) as
marking it once. -/
theorem C8_mark_idempotent
    (ts : List InMemoryTaskRepository.Task) (f : FileContent) (i : Int)
    (hm : 0 ≤ i ∧ i.toNat < ts.length)
    (hf : 0 ≤ i ∧ i.toNat < (fileLines f).length) :
    InMemoryTaskRepository.markTaskCompleted
        (InMemoryTaskRepository.markTaskCompleted ts i) i =
      InMemoryTaskRepository.markTaskCompleted ts i ∧
    fileMark (fileMark f i) i = fileMark f i := by
  constructor
  · rw [memMark_pos hm]
    have hm2 : 0 ≤ i ∧ i.toNat <
        (ts.set i.toNat ⟨(ts.getD i.toNat ⟨"", false⟩).description, true⟩).length := by
      simpa using hm
    rw [memMark_pos hm2]
    have hget : (ts.set i.toNat
          ⟨(ts.getD i.toNat ⟨"", false⟩).description, true⟩).getD i.toNat ⟨"", false⟩ =
        ⟨(ts.getD i.toNat ⟨"", false⟩).description, true⟩ := by
      rw [List.getD_eq_getElem _ _ hm2.2]
      simp [List.getElem_set_self]
    rw [hget, List.set_set]
  · rw [fileMark_pos hf]
    set l1 := (fileLines f).set i.toNat
      (markLine ((fileLines f).getD i.toNat [])) with hl1
    have hmem : (fileLines f).getD i.toNat [] ∈ fileLines f := by
      rw [List.getD_eq_getElem _ _ hf.2]
      exact List.getElem_mem hf.2
    have hnl : ∀ l ∈ l1, '\n' ∉ l := by
      intro l hl
      rcases List.mem_or_eq_of_mem_set hl with h1 | h1
      · exact noNewline_fileLines f l h1
      · subst h1
        exact noNewline_markLine (noNewline_fileLines f _ hmem)
    have hlines : fileLines (some (unlines l1)) = l1 := by
      rw [fileLines]
      exact getLines_unlines hnl
    have hf2 : 0 ≤ i ∧ i.toNat < (fileLines (some (unlines l1))).length := by
      rw [hlines, hl1, List.length_set]
      exact hf
    rw [fileMark_pos hf2, hlines]
    have hget : l1.getD i.toNat [] = markLine ((fileLines f).getD i.toNat []) := by
      rw [hl1]
      have hlen : i.toNat < ((fileLines f).set i.toNat
          (markLine ((fileLines f).getD i.toNat []))).length := by
        rw [List.length_set]; exact hf.2
      rw [List.getD_eq_getElem _ _ hlen]
      simp [List.getElem_set_self]
    rw [hget, markLine_markLine, hl1, List.set_set]

/-- Witness for C8: marking index 0 twice equals marking it once on a
one-task store of each variant. -/
theorem C8_witness :
    InMemoryTaskRepository.markTaskCompleted
        (InMemoryTaskRepository.markTaskCompleted [⟨"a", false⟩] 0) 0 =
      InMemoryTaskRepository.markTaskCompleted [⟨"a", false⟩] 0 ∧
    fileMark (fileMark (some ("a,false\n").data) 0) 0 =
      fileMark (some ("a,false\n").data) 0 :=
  C8_mark_idempotent [⟨"a", false⟩] (some ("a,false\n").data) 0
    ⟨by decide, by decide⟩ ⟨by decide, by decide⟩

/-- Claim C9: `getTasks` on a file-backed store whose backing file does
not exist returns the empty sequence. -/
theorem C9_missing_file_getTasks_empty
    (r : FileTaskRepository) (w : World) (h : w r.filePath = none) :
    r.getTasks w = [] := by
  rw [FileTaskRepository.getTasks, h]
  rfl

/-- Witness for C9: a store pointed at a non-existent path lists no
tasks. -/
theorem C9_witness :
    FileTaskRepository.getTasks ⟨"tasks.txt"⟩ (fun _ => none) = [] :=
  C9_missing_file_getTasks_empty ⟨"tasks.txt"⟩ (fun _ => none) rfl

/-- Claim C10: every `markTaskCompleted` call on the file-backed variant,
for any index, rewrites the backing file with exactly the lines it read
(line `i` re-encoded when the index is valid); in particular the file
exists afterwards, and marking against a missing file creates it empty. -/
theorem C10_mark_always_rewrites_file (f : FileContent) (i : Int) :
    (∃ c, fileMark f i = some c) ∧
    fileLines (fileMark f i) =
      (if 0 ≤ i ∧ i.toNat < (fileLines f).length then
        (fileLines f).set i.toNat (markLine ((fileLines f).getD i.toNat []))
      else fileLines f) ∧
    (f = none → fileMark f i = some []) := by
  refine ⟨⟨_, rfl⟩, ?_, ?_⟩
  · by_cases h : 0 ≤ i ∧ i.toNat < (fileLines f).length
    · rw [if_pos h, fileMark_pos h]
      have hmem : (fileLines f).getD i.toNat [] ∈ fileLines f := by
        rw [List.getD_eq_getElem _ _ h.2]
        exact List.getElem_mem h.2
      have hnl : ∀ l ∈ (fileLines f).set i.toNat
          (markLine ((fileLines f).getD i.toNat [])), '\n' ∉ l := by
        intro l hl
        rcases List.mem_or_eq_of_mem_set hl with h1 | h1
        · exact noNewline_fileLines f l h1
        · subst h1
          exact noNewline_markLine (noNewline_fileLines f _ hmem)
      rw [fileLines]
      exact getLines_unlines hnl
    · rw [if_neg h, fileMark_neg h, fileLines]
      exact getLines_unlines (noNewline_fileLines f)
  · intro hn
    subst hn
    have hg : ¬(0 ≤ i ∧ i.toNat < (fileLines none).length) := by
      simp [fileLines]
    rw [fileMark_neg hg]
    rfl

/-- Witness for C10: marking index 3 against a missing file creates the
file empty. -/
theorem C10_witness : fileMark none 3 = some [] :=
  (C10_mark_always_rewrites_file none 3).2.2 rfl

/-- Claim C6: for every line of the backing file that contains a comma,
`getTasks` takes the part before the first comma as the description and
reports completion exactly when the part after that comma is `"true"`,
rendering `"[X] "`/`"[ ] "` accordingly; and `addTask` appends
`description + ",false" + newline` after the existing bytes. -/
theorem C6_line_encoding_decoding (c : List Char) (i : Nat)
    (pre suf : List Char) (f : FileContent) (d : String)
    (hline : (getLines c).getD i [] = pre ++ ',' :: suf)
    (hpre : ',' ∉ pre) (hi : i < (getLines c).length) :
    (fileGetTasks (some c)).getD i "" =
      (if suf = "true".data then ("[X] " : String) else "[ ] ") ++ String.mk pre ∧
    fileAdd f d = some ((f.getD []) ++ (d.data ++ ',' :: ("false".data ++ ['\n']))) := by
  constructor
  · have hlen : i < ((getLines c).map decodeLine).length := by simpa using hi
    rw [fileGetTasks]
    show ((getLines c).map decodeLine).getD i "" = _
    rw [List.getD_eq_getElem _ _ hlen, List.getElem_map]
    have hgi : (getLines c)[i] = pre ++ ',' :: suf := by
      rw [← List.getD_eq_getElem _ _ hi, hline]
    rw [hgi, decodeLine_of_split hpre]
  · simp [fileAdd, List.append_assoc]

/-- Witness for C6: decoding the first line of `"x,true\ny,false\n"` and
appending a task to an empty store. -/
theorem C6_witness :
    (fileGetTasks (some ("x,true\ny,false\n").data)).getD 0 "" =
      (if ("true").data = ("true").data then ("[X] " : String) else "[ ] ") ++
        String.mk ("x").data ∧
    fileAdd none "z" =
      some (((none : FileContent).getD []) ++
        (("z").data ++ ',' :: (("false").data ++ ['\n']))) :=
  C6_line_encoding_decoding ("x,true\ny,false\n").data 0 ("x").data
    ("true").data none "z" (by decide) (by decide) (by decide)

/-! ### Runs consisting of adds -/

theorem memRun_adds (descs : List String) :
    ∀ s, List.foldl memApply s (descs.map Op.add) =
      s ++ descs.map (fun d => (⟨d, false⟩ : InMemoryTaskRepository.Task)) := by
  induction descs with
  | nil => intro s; simp
  | cons d ds ih =>
    intro s
    rw [List.map_cons, List.foldl_cons]
    show List.foldl memApply (InMemoryTaskRepository.addTask s d) _ = _
    rw [InMemoryTaskRepository.addTask, ih]
    simp

theorem fileAdd_unlines (ls : List (List Char)) (d : String) :
    fileAdd (some (unlines ls)) d =
      some (unlines (ls ++ [encodeTask ⟨d, false⟩])) := by
  rw [unlines_append]
  show some (unlines ls ++ d.data ++ (",false\n").data) = _
  have hx : (",false\n").data = ',' :: (("false").data ++ ['\n']) := rfl
  simp [unlines, encodeTask, hx, List.append_assoc]

theorem fileAdd_none_eq (d : String) :
    fileAdd none d = fileAdd (some (unlines [])) d := rfl

theorem fileRun_adds (descs : List String) :
    ∀ ls, List.foldl fileApply (some (unlines ls)) (descs.map Op.add) =
      some (unlines (ls ++ descs.map (fun d => encodeTask ⟨d, false⟩))) := by
  induction descs with
  | nil => intro ls; simp
  | cons d ds ih =>
    intro ls
    rw [List.map_cons, List.foldl_cons]
    show List.foldl fileApply (fileAdd (some (unlines ls)) d) _ = _
    rw [fileAdd_unlines, ih]
    simp

theorem encodeTask_noNewline {t : InMemoryTaskRepository.Task}
    (h : '\n' ∉ t.description.data) : '\n' ∉ encodeTask t := by
  rw [encodeTask]
  intro hx
  rcases List.mem_append.mp hx with h1 | h1
  · exact h h1
  · rcases List.mem_cons.mp h1 with h2 | h2
    · exact absurd h2 (by decide)
    · cases hc : t.completed <;> rw [hc] at h2 <;> exact absurd h2 (by decide)

theorem decodeLine_encodeTask {t : InMemoryTaskRepository.Task}
    (h : ',' ∉ t.description.data) :
    decodeLine (encodeTask t) =
      if t.completed then ("[X] " : String) ++ t.description
      else ("[ ] " : String) ++ t.description := by
  have hft : ("false").data ≠ ("true").data := by decide
  cases hc : t.completed with
  | true => simp [encodeTask, hc, decodeLine_of_split h, mk_data]
  | false => simp [encodeTask, hc, decodeLine_of_split h, mk_data, hft]

/-- Claim C1 (amended): after any sequence of `addTask` calls from an
empty store, the in-memory variant lists one `"[ ] "`-prefixed entry per
task in insertion order for arbitrary descriptions, and the file-backed
variant does so provided each description contains no comma and no
newline. -/
theorem C1_adds_list_in_order (descs : List String) :
    InMemoryTaskRepository.getTasks (memRun (descs.map Op.add)) =
      descs.map (fun d => ("[ ] " : String) ++ d) ∧
    ((∀ d ∈ descs, ',' ∉ d.data ∧ '\n' ∉ d.data) →
      fileGetTasks (fileRun (descs.map Op.add)) =
        descs.map (fun d => ("[ ] " : String) ++ d)) := by
  constructor
  · rw [memRun, memRun_adds descs []]
    rw [InMemoryTaskRepository.getTasks]
    simp
  · intro hgood
    cases descs with
    | nil => rfl
    | cons d ds =>
      have h1 : fileRun ((d :: ds).map Op.add) =
          some (unlines ((d :: ds).map (fun x => encodeTask ⟨x, false⟩))) := by
        rw [fileRun, List.map_cons, List.foldl_cons]
        show List.foldl fileApply (fileAdd none d) (ds.map Op.add) = _
        rw [fileAdd_none_eq, fileAdd_unlines, fileRun_adds ds _]
        simp
      rw [h1]
      have hnl : ∀ l ∈ (d :: ds).map (fun x => encodeTask ⟨x, false⟩),
          '\n' ∉ l := by
        intro l hl
        obtain ⟨x, hx, rfl⟩ := List.mem_map.mp hl
        exact encodeTask_noNewline (hgood x hx).2
      rw [fileGetTasks_some_unlines hnl, List.map_map]
      refine List.map_congr_left ?_
      intro x hx
      show decodeLine (encodeTask ⟨x, false⟩) = _
      rw [decodeLine_encodeTask (hgood x hx).1]
      simp

/-- Counterexample for C1 as stated: through the file-backed variant, a
description with a comma comes back truncated at the comma, and a
description with a newline comes back as two tasks. -/
theorem C1_counterexample :
    fileGetTasks (fileRun [Op.add "a,b"]) ≠ ["[ ] a,b"] ∧
    fileGetTasks (fileRun [Op.add "a,b"]) = ["[ ] a"] ∧
    fileGetTasks (fileRun [Op.add ("c\nd")]) ≠ ["[ ] c\nd"] ∧
    fileGetTasks (fileRun [Op.add ("c\nd")]) = ["[ ] c", "[ ] d"] := by
  refine ⟨by decide, by decide, by decide, by decide⟩

/-- Witness for C1: two comma-free, newline-free descriptions are listed
in order by both variants. -/
theorem C1_witness :
    InMemoryTaskRepository.getTasks
        (memRun (["Buy milk", "Write report"].map Op.add)) =
      ["Buy milk", "Write report"].map (fun d => ("[ ] " : String) ++ d) ∧
    fileGetTasks (fileRun (["Buy milk", "Write report"].map Op.add)) =
      ["Buy milk", "Write report"].map (fun d => ("[ ] " : String) ++ d) :=
  ⟨(C1_adds_list_in_order ["Buy milk", "Write report"]).1,
    (C1_adds_list_in_order ["Buy milk", "Write report"]).2
      (by intro d hd; simp at hd; rcases hd with rfl | rfl <;>
        exact ⟨by decide, by decide⟩)⟩

theorem splitComma_isSome_of_mem {l : List Char} (h : ',' ∈ l) :
    ∃ a b, splitComma l = some (a, b) := by
  cases hsp : splitComma l with
  | none => exact absurd h (comma_not_mem_of_splitComma_eq_none hsp)
  | some p =>
    obtain ⟨a, b⟩ := p
    exact ⟨a, b, rfl⟩

/-- Claim C2 (amended): marking a valid index sets exactly that entry to
`"[X] " + description` and leaves every other entry unchanged — for the
in-memory variant unconditionally, and for the file-backed variant
provided every line of the backing file contains a comma (which holds
whenever all tasks were added with newline-free descriptions). -/
theorem C2_mark_valid_index
    (ts : List InMemoryTaskRepository.Task) (f : FileContent) (i : Int) :
    ((0 ≤ i ∧ i.toNat < (InMemoryTaskRepository.getTasks ts).length) →
      ∃ d : String,
      ((InMemoryTaskRepository.getTasks ts).getD i.toNat "" =
          ("[ ] " : String) ++ d ∨
        (InMemoryTaskRepository.getTasks ts).getD i.toNat "" =
          ("[X] " : String) ++ d) ∧
      InMemoryTaskRepository.getTasks
          (InMemoryTaskRepository.markTaskCompleted ts i) =
        (InMemoryTaskRepository.getTasks ts).set i.toNat
          (("[X] " : String) ++ d)) ∧
    ((0 ≤ i ∧ i.toNat < (fileGetTasks f).length) →
      (∀ l ∈ fileLines f, ',' ∈ l) → ∃ d : String,
      ((fileGetTasks f).getD i.toNat "" = ("[ ] " : String) ++ d ∨
        (fileGetTasks f).getD i.toNat "" = ("[X] " : String) ++ d) ∧
      fileGetTasks (fileMark f i) =
        (fileGetTasks f).set i.toNat (("[X] " : String) ++ d)) := by
  constructor
  · intro h
    have hlen : (InMemoryTaskRepository.getTasks ts).length = ts.length := by
      rw [InMemoryTaskRepository.getTasks, List.length_map]
    have hts : i.toNat < ts.length := hlen ▸ h.2
    refine ⟨(ts.getD i.toNat ⟨"", false⟩).description, ?_, ?_⟩
    · rw [InMemoryTaskRepository.getTasks,
        List.getD_eq_getElem _ _ (by simpa using hts), List.getElem_map]
      rw [List.getD_eq_getElem _ _ hts]
      cases hc : ts[i.toNat].completed with
      | false => left; rw [if_neg (by simp [hc])]
      | true => right; rw [if_pos (by simp [hc])]
    · rw [memMark_pos ⟨h.1, hts⟩, InMemoryTaskRepository.getTasks,
        List.map_set, InMemoryTaskRepository.getTasks]
      rfl
  · intro h hc
    have hj : i.toNat < (fileLines f).length := length_fileGetTasks f ▸ h.2
    have hmemline : (fileLines f).getD i.toNat [] ∈ fileLines f := by
      rw [List.getD_eq_getElem _ _ hj]
      exact List.getElem_mem hj
    obtain ⟨a, b, hsp⟩ := splitComma_isSome_of_mem (hc _ hmemline)
    obtain ⟨hlab, hna⟩ := splitComma_some hsp
    refine ⟨String.mk a, ?_, ?_⟩
    · rw [fileGetTasks, List.getD_eq_getElem _ _ (by simpa using hj),
        List.getElem_map, ← List.getD_eq_getElem _ _ hj, hlab,
        decodeLine_of_split hna]
      by_cases hb : b = ("true").data
      · right; rw [if_pos hb]
      · left; rw [if_neg hb]
    · rw [fileMark_pos ⟨h.1, hj⟩]
      have hnl : ∀ l ∈ (fileLines f).set i.toNat
          (markLine ((fileLines f).getD i.toNat [])), '\n' ∉ l := by
        intro l hl
        rcases List.mem_or_eq_of_mem_set hl with h1 | h1
        · exact noNewline_fileLines f l h1
        · subst h1
          exact noNewline_markLine (noNewline_fileLines f _ hmemline)
      rw [fileGetTasks_some_unlines hnl, List.map_set,
        decodeLine_markLine hsp]
      rfl

/-- Counterexample for C2 as stated: after `addTask("a\nb")` against an
empty file, the store shows two tasks `"[ ] a"` and `"[ ] b"`; marking
index 0 yields `"[X] true"`, not `"[X] a"` — the entry gains the
`"[X] "` prefix but does not keep its description, because line 0 of the
file has no comma and the rewrite replaces the whole line by `true`. -/
theorem C2_counterexample :
    fileGetTasks (fileRun [Op.add ("a\nb")]) = ["[ ] a", "[ ] b"] ∧
    fileGetTasks (fileMark (fileRun [Op.add ("a\nb")]) 0) ≠
      ["[X] a", "[ ] b"] ∧
    fileGetTasks (fileMark (fileRun [Op.add ("a\nb")]) 0) =
      ["[X] true", "[ ] b"] :=
  ⟨by decide, by decide, by decide⟩

/-- Witness for C2: marking index 0 of a one-task store of each
variant. -/
theorem C2_witness :
    (∃ d : String,
      ((InMemoryTaskRepository.getTasks [⟨"a", false⟩]).getD
          (Int.toNat 0) "" = ("[ ] " : String) ++ d ∨
        (InMemoryTaskRepository.getTasks [⟨"a", false⟩]).getD
          (Int.toNat 0) "" = ("[X] " : String) ++ d) ∧
      InMemoryTaskRepository.getTasks
          (InMemoryTaskRepository.markTaskCompleted [⟨"a", false⟩] 0) =
        (InMemoryTaskRepository.getTasks [⟨"a", false⟩]).set (Int.toNat 0)
          (("[X] " : String) ++ d)) ∧
    (∃ d : String,
      ((fileGetTasks (some ("a,false\n").data)).getD (Int.toNat 0) "" =
          ("[ ] " : String) ++ d ∨
        (fileGetTasks (some ("a,false\n").data)).getD (Int.toNat 0) "" =
          ("[X] " : String) ++ d) ∧
      fileGetTasks (fileMark (some ("a,false\n").data) 0) =
        (fileGetTasks (some ("a,false\n").data)).set (Int.toNat 0)
          (("[X] " : String) ++ d)) :=
  ⟨(C2_mark_valid_index [⟨"a", false⟩] (some ("a,false\n").data) 0).1
      ⟨by decide, by decide⟩,
    (C2_mark_valid_index [⟨"a", false⟩] (some ("a,false\n").data) 0).2
      ⟨by decide, by decide⟩ (by decide)⟩

/-! ### Simulation between the two variants -/

/-- A description the file encoding round-trips exactly: no comma (the
field separator) and no newline (the record separator). -/
def GoodTask (t : InMemoryTaskRepository.Task) : Prop :=
  ',' ∉ t.description.data ∧ '\n' ∉ t.description.data

/-- The simulation relation between a backing file and an in-memory task
vector: either the file does not exist yet and no task is stored, or the
file is exactly the newline-terminated encoding of the stored tasks. -/
def StoreRel (f : FileContent) (ts : List InMemoryTaskRepository.Task) : Prop :=
  (f = none ∧ ts = []) ∨ f = some (unlines (ts.map encodeTask))

theorem StoreRel_add {f : FileContent} {ts : List InMemoryTaskRepository.Task}
    (h : StoreRel f ts) (d : String) :
    StoreRel (fileAdd f d) (InMemoryTaskRepository.addTask ts d) := by
  rcases h with ⟨hf, hts⟩ | hf
  · subst hf; subst hts
    right
    rw [InMemoryTaskRepository.addTask, fileAdd_none_eq, fileAdd_unlines]
    simp
  · subst hf
    right
    rw [fileAdd_unlines, InMemoryTaskRepository.addTask]
    simp

theorem StoreRel_mark {f : FileContent} {ts : List InMemoryTaskRepository.Task}
    (h : StoreRel f ts) (hgood : ∀ t ∈ ts, GoodTask t) (i : Int) :
    StoreRel (fileMark f i) (InMemoryTaskRepository.markTaskCompleted ts i) := by
  have hnl : ∀ l ∈ ts.map encodeTask, '\n' ∉ l := by
    intro l hl
    obtain ⟨t, ht, rfl⟩ := List.mem_map.mp hl
    exact encodeTask_noNewline (hgood t ht).2
  rcases h with ⟨hf, hts⟩ | hf
  · subst hf; subst hts
    right
    have hg : ¬(0 ≤ i ∧ i.toNat < (fileLines (none : FileContent)).length) := by
      simp [fileLines]
    rw [fileMark_neg hg, memMark_neg (by simp)]
    rfl
  · subst hf
    have hfl : fileLines (some (unlines (ts.map encodeTask))) =
        ts.map encodeTask := by
      rw [fileLines]
      exact getLines_unlines hnl
    by_cases hcond : 0 ≤ i ∧ i.toNat < ts.length
    · have hcond2 : 0 ≤ i ∧ i.toNat <
          (fileLines (some (unlines (ts.map encodeTask)))).length := by
        rw [hfl, List.length_map]; exact hcond
      right
      rw [fileMark_pos hcond2, memMark_pos hcond, hfl]
      have hgd : (ts.map encodeTask).getD i.toNat [] =
          encodeTask (ts.getD i.toNat ⟨"", false⟩) := by
        rw [List.getD_eq_getElem _ _ (by simpa using hcond.2),
          List.getElem_map, List.getD_eq_getElem _ _ hcond.2]
      have htmem : ts.getD i.toNat ⟨"", false⟩ ∈ ts := by
        rw [List.getD_eq_getElem _ _ hcond.2]
        exact List.getElem_mem hcond.2
      have hmk : markLine (encodeTask (ts.getD i.toNat ⟨"", false⟩)) =
          encodeTask ⟨(ts.getD i.toNat ⟨"", false⟩).description, true⟩ := by
        rw [encodeTask, markLine_of_split (hgood _ htmem).1, encodeTask]
        simp
      rw [hgd, hmk, List.map_set]
    · have hcond2 : ¬(0 ≤ i ∧ i.toNat <
          (fileLines (some (unlines (ts.map encodeTask)))).length) := by
        rw [hfl, List.length_map]; exact hcond
      right
      rw [fileMark_neg hcond2, memMark_neg hcond, hfl]

theorem memApply_good {ts : List InMemoryTaskRepository.Task} {op : Op}
    (hgood : ∀ t ∈ ts, GoodTask t)
    (hop : ∀ d, op = Op.add d → ',' ∉ d.data ∧ '\n' ∉ d.data) :
    ∀ t ∈ memApply ts op, GoodTask t := by
  cases op with
  | add d =>
    intro t ht
    simp only [memApply, InMemoryTaskRepository.addTask] at ht
    rcases List.mem_append.mp ht with h1 | h1
    · exact hgood t h1
    · have ht2 : t = ⟨d, false⟩ := by simpa using h1
      subst ht2
      exact hop d rfl
  | mark i =>
    intro t ht
    simp only [memApply] at ht
    by_cases hcond : 0 ≤ i ∧ i.toNat < ts.length
    · rw [memMark_pos hcond] at ht
      rcases List.mem_or_eq_of_mem_set ht with h1 | h1
      · exact hgood t h1
      · subst h1
        have htmem : ts.getD i.toNat ⟨"", false⟩ ∈ ts := by
          rw [List.getD_eq_getElem _ _ hcond.2]
          exact List.getElem_mem hcond.2
        exact ⟨(hgood _ htmem).1, (hgood _ htmem).2⟩
    · rw [memMark_neg hcond] at ht
      exact hgood t ht

theorem run_rel (ops : List Op) :
    ∀ (f : FileContent) (ts : List InMemoryTaskRepository.Task),
      StoreRel f ts → (∀ t ∈ ts, GoodTask t) →
      (∀ d, Op.add d ∈ ops → ',' ∉ d.data ∧ '\n' ∉ d.data) →
      StoreRel (List.foldl fileApply f ops) (List.foldl memApply ts ops) ∧
        (∀ t ∈ List.foldl memApply ts ops, GoodTask t) := by
  induction ops with
  | nil => intro f ts h1 h2 _; exact ⟨h1, h2⟩
  | cons op ops ih =>
    intro f ts h1 h2 h3
    rw [List.foldl_cons, List.foldl_cons]
    have hstep : StoreRel (fileApply f op) (memApply ts op) := by
      cases op with
      | add d => exact StoreRel_add h1 d
      | mark i => exact StoreRel_mark h1 h2 i
    have hgood2 : ∀ t ∈ memApply ts op, GoodTask t :=
      memApply_good h2 (fun d hd => h3 d (hd ▸ List.mem_cons_self op ops))
    exact ih _ _ hstep hgood2 (fun d hd => h3 d (List.mem_cons_of_mem op hd))

theorem getTasks_of_StoreRel {f : FileContent}
    {ts : List InMemoryTaskRepository.Task}
    (h : StoreRel f ts) (hgood : ∀ t ∈ ts, GoodTask t) :
    fileGetTasks f = InMemoryTaskRepository.getTasks ts := by
  rcases h with ⟨hf, hts⟩ | hf
  · subst hf; subst hts; rfl
  · subst hf
    have hnl : ∀ l ∈ ts.map encodeTask, '\n' ∉ l := by
      intro l hl
      obtain ⟨t, ht, rfl⟩ := List.mem_map.mp hl
      exact encodeTask_noNewline (hgood t ht).2
    rw [fileGetTasks_some_unlines hnl, List.map_map,
      InMemoryTaskRepository.getTasks]
    refine List.map_congr_left ?_
    intro t ht
    show decodeLine (encodeTask t) = _
    rw [decodeLine_encodeTask (hgood t ht).1]

/-- Claim C5 (amended): an in-memory store and a file-backed store on an
initially non-existent file produce identical `getTasks` results after
any operation sequence whose added descriptions contain no comma and no
newline. -/
theorem C5_variants_agree (ops : List Op)
    (h : ∀ d, Op.add d ∈ ops → ',' ∉ d.data ∧ '\n' ∉ d.data) :
    fileGetTasks (fileRun ops) =
      InMemoryTaskRepository.getTasks (memRun ops) := by
  have h1 := run_rel ops none [] (Or.inl ⟨rfl, rfl⟩) (by simp) h
  exact getTasks_of_StoreRel h1.1 h1.2

/-- Counterexample for C5 as stated: the two variants disagree when a
description contains a comma (the file variant truncates it at the
comma) or a newline (the file variant splits it into two tasks). -/
theorem C5_counterexample :
    fileGetTasks (fileRun [Op.add "a,b"]) ≠
      InMemoryTaskRepository.getTasks (memRun [Op.add "a,b"]) ∧
    fileGetTasks (fileRun [Op.add ("c\nd")]) ≠
      InMemoryTaskRepository.getTasks (memRun [Op.add ("c\nd")]) :=
  ⟨by decide, by decide⟩

/-- Witness for C5: a mixed operation sequence with benign descriptions
gives the same listing through both variants. -/
theorem C5_witness :
    fileGetTasks (fileRun
        [Op.add "Buy milk", Op.add "Write report", Op.mark 0, Op.mark 5]) =
      InMemoryTaskRepository.getTasks (memRun
        [Op.add "Buy milk", Op.add "Write report", Op.mark 0, Op.mark 5]) ∧
    fileGetTasks (fileRun
        [Op.add "Buy milk", Op.add "Write report", Op.mark 0, Op.mark 5]) =
      ["[X] Buy milk", "[ ] Write report"] :=
  ⟨C5_variants_agree _
      (by
        intro d hd
        simp at hd
        rcases hd with rfl | rfl <;> exact ⟨by decide, by decide⟩),
    by decide⟩

/-! ### Reachable file contents are newline-terminated -/

/-- Every file the file-backed repository can produce is either empty or
ends with a newline, since every write path terminates each record with
one. -/
def newlineTerminated (f : FileContent) : Prop :=
  ∀ c, f = some c → c = [] ∨ ∃ x, c = x ++ ['\n']

theorem newlineTerminated_none : newlineTerminated none := by
  intro c hc
  exact Option.noConfusion hc

theorem unlines_empty_or_ends (ls : List (List Char)) :
    unlines ls = [] ∨ ∃ x, unlines ls = x ++ ['\n'] := by
  cases ls with
  | nil => left; rfl
  | cons l m => right; exact unlines_ends_newline (by simp)

theorem content_eq_unlines_getLines {c : List Char}
    (h : c = [] ∨ ∃ x, c = x ++ ['\n']) :
    unlines (getLines c) = c := by
  rcases h with rfl | ⟨x, rfl⟩
  · rfl
  · exact unlines_getLines

theorem newlineTerminated_fileApply (f : FileContent) (op : Op) :
    newlineTerminated (fileApply f op) := by
  cases op with
  | add d =>
    intro c hc
    simp only [fileApply, fileAdd, Option.some.injEq] at hc
    right
    refine ⟨(f.getD []) ++ d.data ++ (",false").data, ?_⟩
    rw [← hc]
    have hx : (",false\n").data = (",false").data ++ ['\n'] := rfl
    simp [hx, List.append_assoc]
  | mark i =>
    intro c hc
    simp only [fileApply, fileMark, Option.some.injEq] at hc
    rw [← hc]
    exact unlines_empty_or_ends _

theorem newlineTerminated_foldl (ops : List Op) :
    ∀ f, newlineTerminated f →
      newlineTerminated (List.foldl fileApply f ops) := by
  induction ops with
  | nil => intro f h; exact h
  | cons op ops ih =>
    intro f _h
    rw [List.foldl_cons]
    exact ih _ (newlineTerminated_fileApply f op)

/-! ### Completed entries survive every operation -/

theorem getD_set_self {α : Type} (l : List α) (n : Nat) (a dflt : α)
    (h : n < l.length) : (l.set n a).getD n dflt = a := by
  rw [List.getD_eq_getElem _ _ (by simpa using h)]
  exact List.getElem_set_self _

theorem getD_set_ne {α : Type} (l : List α) {m n : Nat} (hmn : m ≠ n)
    (a dflt : α) : (l.set m a).getD n dflt = l.getD n dflt := by
  by_cases hn : n < l.length
  · rw [List.getD_eq_getElem _ _ (by simpa using hn),
      List.getElem_set_ne hmn, List.getD_eq_getElem _ _ hn]
  · push_neg at hn
    rw [List.getD_eq_default _ _ (by simpa using hn),
      List.getD_eq_default _ _ hn]

theorem getTasks_mark_pos {s : List InMemoryTaskRepository.Task} {j : Int}
    (h : 0 ≤ j ∧ j.toNat < s.length) :
    InMemoryTaskRepository.getTasks
        (InMemoryTaskRepository.markTaskCompleted s j) =
      (InMemoryTaskRepository.getTasks s).set j.toNat
        (("[X] " : String) ++ (s.getD j.toNat ⟨"", false⟩).description) := by
  rw [memMark_pos h]
  simp [InMemoryTaskRepository.getTasks, List.map_set]

theorem memStep_keeps_done {s : List InMemoryTaskRepository.Task}
    {i : Nat} {d : String}
    (h : (InMemoryTaskRepository.getTasks s).getD i "" = ("[X] " : String) ++ d)
    (op : Op) :
    (InMemoryTaskRepository.getTasks (memApply s op)).getD i "" =
      ("[X] " : String) ++ d := by
  have hi : i < s.length := by
    by_contra hni
    push_neg at hni
    have hlen : (InMemoryTaskRepository.getTasks s).length ≤ i := by
      rw [InMemoryTaskRepository.getTasks, List.length_map]
      exact hni
    rw [List.getD_eq_default _ _ hlen] at h
    exact empty_ne_done_tag d h
  cases op with
  | add d2 =>
    show (InMemoryTaskRepository.getTasks
      (InMemoryTaskRepository.addTask s d2)).getD i "" = _
    rw [InMemoryTaskRepository.addTask, InMemoryTaskRepository.getTasks,
      List.map_append]
    rw [List.getD_append _ _ _ _ (by simpa using hi)]
    exact h
  | mark j =>
    show (InMemoryTaskRepository.getTasks
      (InMemoryTaskRepository.markTaskCompleted s j)).getD i "" = _
    by_cases hcond : 0 ≤ j ∧ j.toNat < s.length
    · rw [getTasks_mark_pos hcond]
      by_cases hij : i = j.toNat
      · subst hij
        rw [getD_set_self _ _ _ _ (by
          rw [InMemoryTaskRepository.getTasks, List.length_map]; exact hi)]
        have hh : (InMemoryTaskRepository.getTasks s).getD j.toNat "" =
            (if s[j.toNat].completed then
              ("[X] " : String) ++ s[j.toNat].description
            else ("[ ] " : String) ++ s[j.toNat].description) := by
          rw [InMemoryTaskRepository.getTasks,
            List.getD_eq_getElem _ _ (by simpa using hi), List.getElem_map]
        rw [hh] at h
        have hgd : s.getD j.toNat ⟨"", false⟩ = s[j.toNat] :=
          List.getD_eq_getElem _ _ hi
        cases hcomp : s[j.toNat].completed with
        | false =>
          rw [if_neg (by simp [hcomp])] at h
          exact absurd h (blank_tag_ne_done_tag _ _)
        | true =>
          rw [if_pos (by simp [hcomp])] at h
          have hd : s[j.toNat].description = d := string_append_left_cancel h
          rw [hgd, hd]
      · rw [getD_set_ne _ (fun hh => hij hh.symm)]
        exact h
    · rw [memMark_neg hcond]
      exact h

theorem fileStep_keeps_done {f : FileContent} {i : Nat} {d : String}
    (hwf : newlineTerminated f)
    (h : (fileGetTasks f).getD i "" = ("[X] " : String) ++ d) (op : Op) :
    (fileGetTasks (fileApply f op)).getD i "" = ("[X] " : String) ++ d := by
  cases hf : f with
  | none =>
    rw [hf] at h
    have : ("" : String) = ("[X] " : String) ++ d := h
    exact absurd this (empty_ne_done_tag d)
  | some c =>
    rw [hf] at h hwf
    have hcu : unlines (getLines c) = c :=
      content_eq_unlines_getLines (hwf c rfl)
    have hi : i < (getLines c).length := by
      by_contra hni
      push_neg at hni
      have hlen : (fileGetTasks (some c)).length ≤ i := by
        rw [length_fileGetTasks]
        exact hni
      rw [List.getD_eq_default _ _ hlen] at h
      exact empty_ne_done_tag d h
    have hentry : (fileGetTasks (some c)).getD i "" =
        decodeLine ((getLines c)[i]) := by
      rw [fileGetTasks]
      show ((getLines c).map decodeLine).getD i "" = _
      rw [List.getD_eq_getElem _ _ (by simpa using hi), List.getElem_map]
    cases op with
    | add d2 =>
      show (fileGetTasks (fileAdd (some c) d2)).getD i "" = _
      have hsplit : fileGetTasks (fileAdd (some c) d2) =
          (getLines c).map decodeLine ++
            (getLines (d2.data ++ (",false\n").data)).map decodeLine := by
        have hc2 : (some c : FileContent).getD [] ++ d2.data ++
            (",false\n").data =
            unlines (getLines c) ++ (d2.data ++ (",false\n").data) := by
          rw [hcu]
          show c ++ d2.data ++ (",false\n").data = _
          rw [List.append_assoc]
        rw [fileAdd, hc2, fileGetTasks]
        show (getLines (unlines (getLines c) ++
          (d2.data ++ (",false\n").data))).map decodeLine = _
        rw [getLines_unlines_append (noNewline_of_mem_getLines), List.map_append]
      rw [hsplit, List.getD_append _ _ _ _ (by simpa using hi)]
      exact h
    | mark j =>
      show (fileGetTasks (fileMark (some c) j)).getD i "" = _
      by_cases hcond : 0 ≤ j ∧ j.toNat < (fileLines (some c)).length
      · rw [fileMark_pos hcond]
        have hjn : j.toNat < (getLines c).length := hcond.2
        have hmemline : (fileLines (some c)).getD j.toNat [] ∈
            fileLines (some c) := by
          rw [List.getD_eq_getElem _ _ hcond.2]
          exact List.getElem_mem hcond.2
        have hnl : ∀ l ∈ (fileLines (some c)).set j.toNat
            (markLine ((fileLines (some c)).getD j.toNat [])), '\n' ∉ l := by
          intro l hl
          rcases List.mem_or_eq_of_mem_set hl with h1 | h1
          · exact noNewline_fileLines (some c) l h1
          · subst h1
            exact noNewline_markLine (noNewline_fileLines (some c) _ hmemline)
        rw [fileGetTasks_some_unlines hnl, List.map_set]
        have hset : i < (((fileLines (some c)).map decodeLine).set j.toNat
            (decodeLine (markLine ((fileLines (some c)).getD j.toNat [])))).length := by
          rw [List.length_set, List.length_map]
          exact hi
        by_cases hij : i = j.toNat
        · subst hij
          rw [List.getD_eq_getElem _ _ hset, List.getElem_set_self]
          have hline : (fileLines (some c)).getD j.toNat [] =
              (getLines c)[j.toNat] := List.getD_eq_getElem _ _ hi
          rw [hentry] at h
          rw [hline, markLine_of_decode_done h]
          exact h
        · rw [List.getD_eq_getElem _ _ hset,
            List.getElem_set_ne (fun hh => hij hh.symm), List.getElem_map]
          rw [hentry] at h
          exact h
      · rw [fileMark_neg hcond]
        have hnl : ∀ l ∈ fileLines (some c), '\n' ∉ l :=
          noNewline_fileLines (some c)
        rw [fileGetTasks_some_unlines hnl]
        exact h

theorem mem_steps_keep_done (ops2 : List Op) {i : Nat} {d : String} :
    ∀ s : List InMemoryTaskRepository.Task,
      (InMemoryTaskRepository.getTasks s).getD i "" = ("[X] " : String) ++ d →
      (InMemoryTaskRepository.getTasks (List.foldl memApply s ops2)).getD i "" =
        ("[X] " : String) ++ d := by
  induction ops2 with
  | nil => intro s h; exact h
  | cons op ops ih =>
    intro s h
    rw [List.foldl_cons]
    exact ih _ (memStep_keeps_done h op)

theorem file_steps_keep_done (ops2 : List Op) {i : Nat} {d : String} :
    ∀ f : FileContent, newlineTerminated f →
      (fileGetTasks f).getD i "" = ("[X] " : String) ++ d →
      (fileGetTasks (List.foldl fileApply f ops2)).getD i "" =
        ("[X] " : String) ++ d := by
  induction ops2 with
  | nil => intro f _ h; exact h
  | cons op ops ih =>
    intro f hwf h
    rw [List.foldl_cons]
    exact ih _ (newlineTerminated_fileApply f op) (fileStep_keeps_done hwf h op)

/-- Claim C7: completion is monotonic — in either variant, once a session
starting from an empty store shows an entry as `"[X] " + d`, that entry
still reads `"[X] " + d` after any further operations of the contract
(`getTasks` itself reads the store without changing it). -/
theorem C7_completion_monotonic (ops ops2 : List Op) (i : Nat) (d : String) :
    ((InMemoryTaskRepository.getTasks (memRun ops)).getD i "" =
        ("[X] " : String) ++ d →
      (InMemoryTaskRepository.getTasks (memRun (ops ++ ops2))).getD i "" =
        ("[X] " : String) ++ d) ∧
    ((fileGetTasks (fileRun ops)).getD i "" = ("[X] " : String) ++ d →
      (fileGetTasks (fileRun (ops ++ ops2))).getD i "" =
        ("[X] " : String) ++ d) := by
  constructor
  · intro h
    rw [memRun, List.foldl_append]
    exact mem_steps_keep_done ops2 _ h
  · intro h
    rw [fileRun, List.foldl_append]
    exact file_steps_keep_done ops2 _
      (newlineTerminated_foldl ops none newlineTerminated_none) h

/-- Witness for C7: after `addTask("a")`, `markTaskCompleted(0)`, entry 0
reads `"[X] a"` in both variants and still does after a further add and
an out-of-bounds mark. -/
theorem C7_witness :
    (InMemoryTaskRepository.getTasks
        (memRun [Op.add "a", Op.mark 0])).getD 0 "" = ("[X] " : String) ++ "a" ∧
    (InMemoryTaskRepository.getTasks
        (memRun ([Op.add "a", Op.mark 0] ++ [Op.add "b", Op.mark 5]))).getD 0 "" =
      ("[X] " : String) ++ "a" ∧
    (fileGetTasks (fileRun [Op.add "a", Op.mark 0])).getD 0 "" =
      ("[X] " : String) ++ "a" ∧
    (fileGetTasks (fileRun
        ([Op.add "a", Op.mark 0] ++ [Op.add "b", Op.mark 5]))).getD 0 "" =
      ("[X] " : String) ++ "a" :=
  ⟨by decide,
    (C7_completion_monotonic [Op.add "a", Op.mark 0] [Op.add "b", Op.mark 5]
      0 "a").1 (by decide),
    by decide,
    (C7_completion_monotonic [Op.add "a", Op.mark 0] [Op.add "b", Op.mark 5]
      0 "a").2 (by decide)⟩
